import Mathlib

/-!
Verification of `mass_pokemon_dataset_curator.py`.

Shallow embedding of the pure string-processing core of the curator:
* `extract_pokemon_name` (the name-pattern classifier, lines 29-62),
* `get_standard_folder_name` / `should_rename_folder` (the canonicalizer, lines 65-79),
* `process_tags` (the tag processor, lines 82-127),
* the rename loop and rename-map resolution of `main` (lines 203-224).

Strings are modelled as `List Char`.  Python's ASCII case mapping
(`str.lower`, `str.upper` restricted to basic latin, which is all the
curator relies on) is modelled by core `Char.toLower` / `Char.toUpper`,
whose definitions coincide with CPython's behaviour on ASCII.
-/

abbrev Str := List Char

/-- `str.lower` on a single character (ASCII fragment). -/
def lowerChar (c : Char) : Char := Char.toLower c

/-- first-letter upper-casing used by `str.capitalize` (ASCII fragment). -/
def upperChar (c : Char) : Char := Char.toUpper c

/-- `str.lower` (ASCII fragment). -/
def lowerStr (s : Str) : Str := s.map lowerChar

/-- Whitespace stripped by Python's `str.strip()` (ASCII whitespace). -/
def isSpaceChar (c : Char) : Bool :=
  decide (c.toNat = 32 ∨ c.toNat = 9 ∨ c.toNat = 10 ∨ c.toNat = 13 ∨ c.toNat = 11 ∨ c.toNat = 12)

/-- Python `str.strip()`: drop leading and trailing whitespace. -/
def strip (s : Str) : Str :=
  ((s.dropWhile isSpaceChar).reverse.dropWhile isSpaceChar).reverse

/-- `tag.strip().lower()` (source line 95). -/
def stripLower (t : Str) : Str := lowerStr (strip t)

/-- Python `str.split(sep)` for a one-character separator `sep`, generalised
to a predicate: splits at every separator character, keeping empty pieces
(`"".split(',') = [""]`, `",".split(',') = ["", ""]`). -/
def splitOnPred (p : Char → Bool) : Str → List Str
  | [] => [[]]
  | c :: cs =>
    if p c then [] :: splitOnPred p cs
    else
      match splitOnPred p cs with
      | [] => [[c]]
      | t :: ts => (c :: t) :: ts

/-- The separator predicate of `tags_str.split(',')`. -/
def isCommaChar (c : Char) : Bool := decide (c = ',')

/-- The separator predicate of `re.split(r'[_-]', name)`. -/
def isSepChar (c : Char) : Bool := decide (c = '_' ∨ c = '-')

/-- `', '.join(tags)` (Python `str.join` with separator `", "`). -/
def joinCS : List Str → Str
  | [] => []
  | [t] => t
  | t :: u :: ts => t ++ ',' :: ' ' :: joinCS (u :: ts)

/-- Python `s.split(', ')` on the two-character separator `", "`:
left-to-right non-overlapping scan. -/
def splitOnCS : Str → List Str
  | [] => [[]]
  | [c] => [[c]]
  | c₁ :: c₂ :: r =>
    if c₁ = ',' ∧ c₂ = ' ' then [] :: splitOnCS r
    else
      match splitOnCS (c₂ :: r) with
      | [] => [[c₁]]
      | t :: ts => (c₁ :: t) :: ts

/-- Does `pat` occur at the head of `s`? (helper for Python's `in`). -/
def leadsWith : Str → Str → Bool
  | [], _ => true
  | _ :: _, [] => false
  | p :: ps, c :: cs => decide (p = c) && leadsWith ps cs

/-- Python's substring test `pat in s`. -/
def containsSub (pat : Str) : Str → Bool
  | [] => leadsWith pat []
  | c :: cs => leadsWith pat (c :: cs) || containsSub pat cs

/-- The character class `[a-zA-Z0-9_-]` of the classifier's regexes. -/
def isNameChar (c : Char) : Bool :=
  decide ((65 ≤ c.toNat ∧ c.toNat ≤ 90) ∨ (97 ≤ c.toNat ∧ c.toNat ≤ 122) ∨
    (48 ≤ c.toNat ∧ c.toNat ≤ 57) ∨ c.toNat = 95 ∨ c.toNat = 45)

/-- Lowercase name characters `[a-z0-9_-]` (the shape of extracted names). -/
def isLowerNameChar (c : Char) : Bool :=
  decide ((97 ≤ c.toNat ∧ c.toNat ≤ 122) ∨ (48 ≤ c.toNat ∧ c.toNat ≤ 57) ∨
    c.toNat = 95 ∨ c.toNat = 45)

/-- Semantics of `re.match(r'^([a-zA-Z0-9_-]+)SFX$', s, re.IGNORECASE)` for a
fixed-length literal suffix `SFX`: since the suffix is a fixed-length literal
anchored at the end, the greedy group is exactly the complement of the last
`sfx.length` characters; the match succeeds iff that prefix is non-empty, all
its characters are in the class, and the last characters equal the suffix up
to ASCII case.  Returns `group(1)` (un-lowercased). -/
def matchNameSuffix (sfx : Str) (s : Str) : Option Str :=
  if sfx.length < s.length ∧ lowerStr (s.drop (s.length - sfx.length)) = lowerStr sfx ∧
      (s.take (s.length - sfx.length)).all isNameChar
  then some (s.take (s.length - sfx.length))
  else none

/-- `extract_pokemon_name` (source lines 29-62): try the four folder-name
formats in order and return the lowercased name of the first match. -/
def extract_pokemon_name (folder_name : Str) : Option Str :=
  match matchNameSuffix ("Pokedex_IXL".data) folder_name with
  | some name => some (lowerStr name)
  | none =>
  match matchNameSuffix ("_(pokemon)".data) folder_name with
  | some name => some (lowerStr name)
  | none =>
  match matchNameSuffix ("_pokemon".data) folder_name with
  | some name => some (lowerStr name)
  | none =>
  if folder_name ≠ [] ∧ folder_name.all isNameChar ∧
      containsSub ("pokedex".data) (lowerStr folder_name) = false ∧
      containsSub ("(pokemon)".data) (lowerStr folder_name) = false
  then some (lowerStr folder_name)
  else none

/-- Python `str.capitalize()` (ASCII fragment): first character upper-cased,
remainder lower-cased. -/
def pyCapitalize : Str → Str
  | [] => []
  | c :: cs => upperChar c :: lowerStr cs

/-- `''.join(part.capitalize() for part in re.split(r'[_-]', name))`
(source lines 71-72 and 116-117). -/
def capitalizedConcat (name : Str) : Str :=
  ((splitOnPred isSepChar name).map pyCapitalize).flatten

/-- `get_standard_folder_name` (source lines 65-73). -/
def get_standard_folder_name (pokemon_name : Str) : Str :=
  capitalizedConcat pokemon_name ++ ("Pokedex_IXL".data)

/-- `should_rename_folder` (source lines 76-79). -/
def should_rename_folder (folder_name : Str) (pokemon_name : Str) : Bool :=
  decide (folder_name ≠ get_standard_folder_name pokemon_name)

/-- The self-referential tag `f"{pokemon_name}_(pokemon)"` (source line 101). -/
def pokemonTag (pokemon_name : Str) : Str := pokemon_name ++ ("_(pokemon)".data)

/-- The trigger tag `f"zz{capitalized}C1tr0n"` (source lines 116-118). -/
def triggerTag (pokemon_name : Str) : Str :=
  ("zz".data) ++ capitalizedConcat pokemon_name ++ ("C1tr0n".data)

/-- The order-preserving deduplication of `process_tags` (source lines
107-113), with the `seen` set modelled as a list queried by membership. -/
def dedupSeen (seen : List Str) : List Str → List Str
  | [] => []
  | t :: ts => if t ∈ seen then dedupSeen seen ts else t :: dedupSeen (t :: seen) ts

/-- Steps 2-5 of `process_tags` applied to the already split-stripped-lowered
tag list: drop empties, drop the self-referential tag, drop absorbed tags,
deduplicate preserving order (source lines 97-113). -/
def cleanse (pokemon_name : Str) (tags_to_absorb : List Str) (tags : List Str) : List Str :=
  dedupSeen []
    (((tags.filter (fun t => decide (t ≠ []))).filter
        (fun t => decide (t ≠ pokemonTag pokemon_name))).filter
      (fun t => decide (t ∉ tags_to_absorb)))

/-- The processed tag list before joining: split on `','`, strip and lower
each piece, cleanse (source lines 94-113). -/
def processedList (tags_str : Str) (pokemon_name : Str) (tags_to_absorb : List Str) : List Str :=
  cleanse pokemon_name tags_to_absorb
    ((splitOnPred isCommaChar tags_str).map stripLower)

/-- `process_tags` (source lines 82-127). -/
def process_tags (tags_str : Str) (pokemon_name : Str) (tags_to_absorb : List Str) : Str :=
  let unique_tags := processedList tags_str pokemon_name tags_to_absorb
  let trigger_tag := triggerTag pokemon_name
  let final_tags :=
    if lowerStr trigger_tag ∈ unique_tags then unique_tags
    else trigger_tag :: unique_tags
  joinCS final_tags

/-- The argument passed to the external validator `ispokemon` for a
recognized folder: `pokemon_name.capitalize()` (source line 195). -/
def validation_argument (pokemon_name : Str) : Str := pyCapitalize pokemon_name

/-- State of the rename phase of `main` (source lines 203-224): the names of
the folders currently existing in the dataset directory, and the accumulated
old-name → new-name map. -/
structure RenameState where
  folders : List Str
  rename_map : List (Str × Str)
deriving DecidableEq

/-- One iteration of the rename loop (source lines 205-215): if the target
name already exists, warn and skip; otherwise rename the folder and record
the mapping. -/
def rename_step (st : RenameState) (old_name new_name : Str) : RenameState :=
  if new_name ∈ st.folders then st
  else
    { folders := st.folders.map (fun f => if f = old_name then new_name else f),
      rename_map := st.rename_map ++ [(old_name, new_name)] }

/-- The rename loop over `folders_to_rename` (source lines 205-215). -/
def rename_folders (st : RenameState) : List (Str × Str) → RenameState
  | [] => st
  | (o, n) :: rest => rename_folders (rename_step st o n) rest

/-- Path re-resolution through the rename map (source lines 218-224). -/
def resolve (rename_map : List (Str × Str)) (folder : Str) : Str :=
  match rename_map.find? (fun p => decide (p.1 = folder)) with
  | some p => p.2
  | none => folder

/-- Invariant satisfied by every element of a processed tag list: non-empty,
already stripped and lower-cased, comma-free, not the self-referential tag,
not absorbed. -/
def IsCleanTag (pokemon_name : Str) (tags_to_absorb : List Str) (t : Str) : Prop :=
  t ≠ [] ∧ strip t = t ∧ lowerStr t = t ∧ (∀ c ∈ t, isCommaChar c = false) ∧
    t ≠ pokemonTag pokemon_name ∧ t ∉ tags_to_absorb

example : extract_pokemon_name ("PikachuPokedex_IXL".data) = some ("pikachu".data) := by decide
example : extract_pokemon_name ("Mr-Mime".data) = some ("mr-mime".data) := by decide
example : extract_pokemon_name ("Eevee_(pokemon)".data) = some ("eevee".data) := by decide
example : extract_pokemon_name ("abc_pokemon".data) = some ("abc".data) := by decide
example : extract_pokemon_name ("Pokedex_IXL".data) = none := by decide
example : extract_pokemon_name ("foo.bar".data) = none := by decide
example : get_standard_folder_name ("mr-mime".data) = ("MrMimePokedex_IXL".data) := by decide
example :
    process_tags ("Eevee_(pokemon), cute, Eevee_(pokemon), collar".data) ("eevee".data) [] =
      ("zzEeveeC1tr0n, cute, collar".data) := by decide
example : process_tags ([]) ("pikachu".data) [] = ("zzPikachuC1tr0n".data) := by decide
example :
    process_tags ("zzPikachuC1tr0n".data) ("pikachu".data) [] = ("zzpikachuc1tr0n".data) := by
  decide

/-! ### Character-level lemmas -/

theorem charEq_of_toNat_eq {a b : Char} (h : a.toNat = b.toNat) : a = b :=
  Char.ext (UInt32.toNat.inj h)

theorem toNat_ofNat_valid {n : Nat} (h : n < 55296) : (Char.ofNat n).toNat = n := by
  rw [Char.ofNat, dif_pos (Or.inl h)]
  rfl

theorem lowerChar_toNat (c : Char) :
    (lowerChar c).toNat =
      if 65 ≤ c.toNat ∧ c.toNat ≤ 90 then c.toNat + 32 else c.toNat := by
  unfold lowerChar Char.toLower
  by_cases h : 65 ≤ c.toNat ∧ c.toNat ≤ 90
  · rw [if_pos h, if_pos ⟨h.1, h.2⟩, toNat_ofNat_valid (by omega)]
  · rw [if_neg h, if_neg (fun hc => h ⟨hc.1, hc.2⟩)]

theorem upperChar_toNat (c : Char) :
    (upperChar c).toNat =
      if 97 ≤ c.toNat ∧ c.toNat ≤ 122 then c.toNat - 32 else c.toNat := by
  unfold upperChar Char.toUpper
  by_cases h : 97 ≤ c.toNat ∧ c.toNat ≤ 122
  · rw [if_pos h, if_pos ⟨h.1, h.2⟩, toNat_ofNat_valid (by omega)]
  · rw [if_neg h, if_neg (fun hc => h ⟨hc.1, hc.2⟩)]

theorem lowerChar_eq_self {c : Char} (h : ¬ (65 ≤ c.toNat ∧ c.toNat ≤ 90)) :
    lowerChar c = c := by
  unfold lowerChar Char.toLower
  exact if_neg (fun hc => h ⟨hc.1, hc.2⟩)

theorem lowerChar_lowerChar (c : Char) : lowerChar (lowerChar c) = lowerChar c := by
  by_cases h : 65 ≤ c.toNat ∧ c.toNat ≤ 90
  · apply lowerChar_eq_self
    rw [lowerChar_toNat, if_pos h]
    omega
  · rw [lowerChar_eq_self h, lowerChar_eq_self h]

theorem lowerChar_upperChar (c : Char) : lowerChar (upperChar c) = lowerChar c := by
  by_cases h : 97 ≤ c.toNat ∧ c.toNat ≤ 122
  · apply charEq_of_toNat_eq
    rw [lowerChar_toNat, lowerChar_toNat, upperChar_toNat, if_pos h]
    rw [if_pos (by omega), if_neg (by omega)]
    omega
  · unfold upperChar Char.toUpper
    rw [if_neg (fun hc => h ⟨hc.1, hc.2⟩)]

theorem isSpaceChar_lowerChar (c : Char) : isSpaceChar (lowerChar c) = isSpaceChar c := by
  unfold isSpaceChar
  rw [lowerChar_toNat]
  by_cases h : 65 ≤ c.toNat ∧ c.toNat ≤ 90
  · rw [if_pos h]
    apply decide_eq_decide.mpr
    omega
  · rw [if_neg h]

theorem isCommaChar_lowerChar (c : Char) : isCommaChar (lowerChar c) = isCommaChar c := by
  unfold isCommaChar
  apply decide_eq_decide.mpr
  constructor
  · intro h
    by_cases hu : 65 ≤ c.toNat ∧ c.toNat ≤ 90
    · exfalso
      have : (lowerChar c).toNat = c.toNat + 32 := by rw [lowerChar_toNat, if_pos hu]
      rw [h] at this
      have h44 : (',' : Char).toNat = 44 := by decide
      omega
    · rw [lowerChar_eq_self hu] at h
      exact h
  · intro h
    subst h
    exact lowerChar_eq_self (by decide)

theorem isLowerNameChar_lowerChar {c : Char} (h : isNameChar c = true) :
    isLowerNameChar (lowerChar c) = true := by
  unfold isNameChar at h
  unfold isLowerNameChar
  rw [lowerChar_toNat]
  have h' := of_decide_eq_true h
  by_cases hu : 65 ≤ c.toNat ∧ c.toNat ≤ 90
  · rw [if_pos hu]
    apply decide_eq_true
    omega
  · rw [if_neg hu]
    apply decide_eq_true
    omega

theorem lowerChar_eq_self_of_lower {c : Char} (h : isLowerNameChar c = true) :
    lowerChar c = c := by
  have h' := of_decide_eq_true h
  exact lowerChar_eq_self (by omega)

theorem isNameChar_of_lower {c : Char} (h : isLowerNameChar c = true) :
    isNameChar c = true := by
  have h' := of_decide_eq_true h
  exact decide_eq_true (by omega)

theorem isNameChar_upperChar {c : Char} (h : isNameChar c = true) :
    isNameChar (upperChar c) = true := by
  have h' := of_decide_eq_true h
  unfold isNameChar
  rw [upperChar_toNat]
  by_cases hl : 97 ≤ c.toNat ∧ c.toNat ≤ 122
  · rw [if_pos hl]
    apply decide_eq_true
    omega
  · rw [if_neg hl]
    exact h

theorem isNameChar_lowerChar {c : Char} (h : isNameChar c = true) :
    isNameChar (lowerChar c) = true := by
  have h' := of_decide_eq_true h
  unfold isNameChar
  rw [lowerChar_toNat]
  by_cases hu : 65 ≤ c.toNat ∧ c.toNat ≤ 90
  · rw [if_pos hu]
    apply decide_eq_true
    omega
  · rw [if_neg hu]
    exact h

theorem isSpaceChar_false_of_nameChar {c : Char} (h : isNameChar c = true) :
    isSpaceChar c = false := by
  have h' := of_decide_eq_true h
  exact decide_eq_false (by omega)

theorem isCommaChar_false_of_nameChar {c : Char} (h : isNameChar c = true) :
    isCommaChar c = false := by
  have h' := of_decide_eq_true h
  apply decide_eq_false
  intro hc
  subst hc
  revert h'
  decide

theorem ne_lparen_of_nameChar {c : Char} (h : isNameChar c = true) : c ≠ '(' := by
  have h' := of_decide_eq_true h
  intro hc
  subst hc
  revert h'
  decide

/-! ### lowerStr and strip lemmas -/

theorem lowerStr_append (a b : Str) : lowerStr (a ++ b) = lowerStr a ++ lowerStr b := by
  simp [lowerStr]

theorem lowerStr_length (s : Str) : (lowerStr s).length = s.length := by
  simp [lowerStr]

theorem lowerStr_lowerStr (s : Str) : lowerStr (lowerStr s) = lowerStr s := by
  unfold lowerStr
  rw [List.map_map]
  exact List.map_congr_left (fun c _ => lowerChar_lowerChar c)

theorem lowerStr_eq_self_of_all {s : Str} (h : ∀ c ∈ s, lowerChar c = c) :
    lowerStr s = s := by
  induction s with
  | nil => rfl
  | cons c cs ih =>
    simp only [lowerStr, List.map_cons] at *
    rw [h c (by simp), ih (fun d hd => h d (by simp [hd]))]

theorem dropWhile_map_of {f : Char → Char} {p : Char → Bool}
    (hp : ∀ c, p (f c) = p c) (l : Str) :
    List.dropWhile p (l.map f) = (List.dropWhile p l).map f := by
  induction l with
  | nil => rfl
  | cons c cs ih =>
    by_cases h : p c
    · have hfc : p (f c) = true := by rw [hp c]; exact h
      simp only [List.map_cons, List.dropWhile_cons_of_pos hfc,
        List.dropWhile_cons_of_pos h, ih]
    · have hfc : ¬ p (f c) = true := by rw [hp c]; exact h
      simp only [List.map_cons, List.dropWhile_cons_of_neg hfc,
        List.dropWhile_cons_of_neg h]

theorem strip_lowerStr (s : Str) : strip (lowerStr s) = lowerStr (strip s) := by
  unfold strip lowerStr
  rw [dropWhile_map_of isSpaceChar_lowerChar, ← List.map_reverse,
    dropWhile_map_of isSpaceChar_lowerChar, ← List.map_reverse]

theorem head?_dropWhile_false {p : Char → Bool} {l : Str} {c : Char}
    (h : (l.dropWhile p).head? = some c) : p c = false := by
  induction l with
  | nil => simp at h
  | cons d ds ih =>
    by_cases hd : p d
    · rw [List.dropWhile_cons_of_pos hd] at h
      exact ih h
    · rw [List.dropWhile_cons_of_neg hd] at h
      simp only [List.head?_cons, Option.some.injEq] at h
      subst h
      exact eq_false_of_ne_true hd

theorem dropWhile_eq_self_of_head? {p : Char → Bool} {l : Str}
    (h : ∀ c, l.head? = some c → p c = false) : l.dropWhile p = l := by
  cases l with
  | nil => rfl
  | cons c cs =>
    exact List.dropWhile_cons_of_neg (by rw [h c rfl]; exact Bool.false_ne_true)

theorem getLast?_dropWhile {p : Char → Bool} {l : Str}
    (h : l.dropWhile p ≠ []) : (l.dropWhile p).getLast? = l.getLast? := by
  induction l with
  | nil => simp at h
  | cons c cs ih =>
    by_cases hc : p c
    · rw [List.dropWhile_cons_of_pos hc] at h ⊢
      rw [ih h]
      cases cs with
      | nil => simp [List.dropWhile] at h
      | cons u us => simp
    · rw [List.dropWhile_cons_of_neg hc]

theorem strip_head? {s : Str} {c : Char} (h : (strip s).head? = some c) :
    isSpaceChar c = false := by
  unfold strip at h
  rw [List.head?_reverse] at h
  have hne : (((s.dropWhile isSpaceChar).reverse).dropWhile isSpaceChar) ≠ [] := by
    intro hnil
    rw [hnil] at h
    simp at h
  rw [getLast?_dropWhile hne, List.getLast?_reverse] at h
  exact head?_dropWhile_false h

theorem strip_getLast? {s : Str} {c : Char} (h : (strip s).getLast? = some c) :
    isSpaceChar c = false := by
  unfold strip at h
  rw [List.getLast?_reverse] at h
  exact head?_dropWhile_false h

theorem strip_eq_self_of {s : Str}
    (h1 : ∀ c, s.head? = some c → isSpaceChar c = false)
    (h2 : ∀ c, s.getLast? = some c → isSpaceChar c = false) : strip s = s := by
  unfold strip
  rw [dropWhile_eq_self_of_head? h1]
  rw [dropWhile_eq_self_of_head? (by intro c hc; rw [List.head?_reverse] at hc; exact h2 c hc)]
  exact List.reverse_reverse s

theorem strip_strip (s : Str) : strip (strip s) = strip s :=
  strip_eq_self_of (fun _ h => strip_head? h) (fun _ h => strip_getLast? h)

theorem strip_eq_self_of_all {s : Str} (h : ∀ c ∈ s, isSpaceChar c = false) :
    strip s = s := by
  apply strip_eq_self_of
  · intro c hc
    cases s with
    | nil => simp at hc
    | cons d ds =>
      simp only [List.head?_cons, Option.some.injEq] at hc
      exact h c (by simp [← hc])
  · intro c hc
    rw [List.getLast?_eq_head?_reverse] at hc
    have hmem : c ∈ s.reverse := by
      cases hrev : s.reverse with
      | nil => rw [hrev] at hc; simp at hc
      | cons d ds =>
        rw [hrev] at hc
        simp only [List.head?_cons, Option.some.injEq] at hc
        simp [← hc]
    exact h c (List.mem_reverse.mp hmem)

theorem strip_cons_space {c : Char} {s : Str} (h : isSpaceChar c = true) :
    strip (c :: s) = strip s := by
  unfold strip
  rw [List.dropWhile_cons_of_pos h]

theorem mem_strip {c : Char} {s : Str} (h : c ∈ strip s) : c ∈ s := by
  unfold strip at h
  rw [List.mem_reverse] at h
  have h1 := (List.dropWhile_sublist (l := (s.dropWhile isSpaceChar).reverse) isSpaceChar).subset h
  rw [List.mem_reverse] at h1
  exact (List.dropWhile_sublist isSpaceChar).subset h1

theorem stripLower_stripLower (t : Str) : stripLower (stripLower t) = stripLower t := by
  unfold stripLower
  rw [strip_lowerStr, strip_strip, lowerStr_lowerStr]

theorem stripLower_eq_self {t : Str} (h1 : strip t = t) (h2 : lowerStr t = t) :
    stripLower t = t := by
  unfold stripLower
  rw [h1, h2]

theorem strip_stripLower (t : Str) : strip (stripLower t) = stripLower t := by
  unfold stripLower
  rw [strip_lowerStr, strip_strip]

theorem lowerStr_stripLower (t : Str) : lowerStr (stripLower t) = stripLower t := by
  unfold stripLower
  rw [lowerStr_lowerStr]

theorem stripLower_cons_space {s : Str} : stripLower (' ' :: s) = stripLower s := by
  unfold stripLower
  rw [strip_cons_space (by decide)]

/-! ### splitOnPred lemmas -/

theorem splitOnPred_nil (p : Char → Bool) : splitOnPred p [] = [[]] := rfl

theorem splitOnPred_cons_pos {p : Char → Bool} {c : Char} (s : Str) (h : p c = true) :
    splitOnPred p (c :: s) = [] :: splitOnPred p s := by
  simp [splitOnPred, h]

theorem splitOnPred_ne_nil (p : Char → Bool) (s : Str) : splitOnPred p s ≠ [] := by
  induction s with
  | nil => simp [splitOnPred]
  | cons c cs ih =>
    by_cases h : p c
    · simp [splitOnPred, h]
    · cases hsp : splitOnPred p cs with
      | nil => exact absurd hsp ih
      | cons t ts => simp [splitOnPred, h, hsp]

theorem splitOnPred_cons_neg {p : Char → Bool} {c : Char} {s : Str} {t : Str} {ts : List Str}
    (h : p c = false) (hsp : splitOnPred p s = t :: ts) :
    splitOnPred p (c :: s) = (c :: t) :: ts := by
  simp [splitOnPred, h, hsp]

theorem splitOnPred_sepFree {p : Char → Bool} {s : Str} (h : ∀ c ∈ s, p c = false) :
    splitOnPred p s = [s] := by
  induction s with
  | nil => rfl
  | cons c cs ih =>
    exact splitOnPred_cons_neg (h c (by simp))
      (ih (fun d hd => h d (by simp [hd])))

theorem splitOnPred_append_sep {p : Char → Bool} {t : Str} {sep : Char} (r : Str)
    (h : ∀ c ∈ t, p c = false) (hsep : p sep = true) :
    splitOnPred p (t ++ sep :: r) = t :: splitOnPred p r := by
  induction t with
  | nil => simpa using splitOnPred_cons_pos r hsep
  | cons c t' ih =>
    have := ih (fun d hd => h d (by simp [hd]))
    simpa using splitOnPred_cons_neg (h c (by simp)) this

theorem mem_mem_splitOnPred {p : Char → Bool} {s t : Str} {c : Char}
    (ht : t ∈ splitOnPred p s) (hc : c ∈ t) : c ∈ s ∧ p c = false := by
  induction s generalizing t with
  | nil =>
    simp only [splitOnPred_nil, List.mem_singleton] at ht
    subst ht
    simp at hc
  | cons d ds ih =>
    by_cases hd : p d
    · rw [splitOnPred_cons_pos ds hd] at ht
      rcases List.mem_cons.mp ht with h1 | h1
      · subst h1; simp at hc
      · have := ih h1 hc
        exact ⟨by simp [this.1], this.2⟩
    · cases hsp : splitOnPred p ds with
      | nil => exact absurd hsp (splitOnPred_ne_nil p ds)
      | cons u us =>
        rw [splitOnPred_cons_neg (eq_false_of_ne_true hd) hsp] at ht
        rcases List.mem_cons.mp ht with h1 | h1
        · subst h1
          rcases List.mem_cons.mp hc with h2 | h2
          · subst h2
            exact ⟨by simp, eq_false_of_ne_true hd⟩
          · have := ih (t := u) (by rw [hsp]; simp) h2
            exact ⟨by simp [this.1], this.2⟩
        · have := ih (t := t) (by rw [hsp]; simp [h1]) hc
          exact ⟨by simp [this.1], this.2⟩

/-! ### dedupSeen lemmas -/

theorem mem_dedupSeen {t : Str} : ∀ (seen : List Str) (l : List Str),
    t ∈ dedupSeen seen l ↔ t ∈ l ∧ t ∉ seen := by
  intro seen l
  induction l generalizing seen with
  | nil => simp [dedupSeen]
  | cons u us ih =>
    unfold dedupSeen
    by_cases hu : u ∈ seen
    · rw [if_pos hu, ih]
      constructor
      · exact fun ⟨h1, h2⟩ => ⟨by simp [h1], h2⟩
      · rintro ⟨h1, h2⟩
        rcases List.mem_cons.mp h1 with h3 | h3
        · subst h3; exact absurd hu h2
        · exact ⟨h3, h2⟩
    · rw [if_neg hu]
      by_cases htu : t = u
      · subst htu
        simp [ih, hu]
      · simp only [List.mem_cons, htu, false_or]
        rw [ih]
        simp [htu]

theorem nodup_dedupSeen : ∀ (seen : List Str) (l : List Str), (dedupSeen seen l).Nodup := by
  intro seen l
  induction l generalizing seen with
  | nil => simp [dedupSeen]
  | cons u us ih =>
    unfold dedupSeen
    by_cases hu : u ∈ seen
    · rw [if_pos hu]; exact ih seen
    · rw [if_neg hu]
      refine List.nodup_cons.mpr ⟨?_, ih (u :: seen)⟩
      intro hmem
      exact ((mem_dedupSeen (u :: seen) us).mp hmem).2 (by simp)

theorem dedupSeen_eq_self {l : List Str} : ∀ {seen : List Str}, l.Nodup →
    (∀ t ∈ l, t ∉ seen) → dedupSeen seen l = l := by
  induction l with
  | nil => intro seen _ _; rfl
  | cons u us ih =>
    intro seen hnd hdis
    unfold dedupSeen
    rw [if_neg (hdis u (by simp))]
    congr 1
    apply ih (List.nodup_cons.mp hnd).2
    intro t ht
    simp only [List.mem_cons, not_or]
    exact ⟨fun h => (List.nodup_cons.mp hnd).1 (h ▸ ht), hdis t (by simp [ht])⟩

/-! ### joinCS lemmas -/

theorem joinCS_cons_cons (t u : Str) (ts : List Str) :
    joinCS (t :: u :: ts) = t ++ ',' :: ' ' :: joinCS (u :: ts) := rfl

theorem lowerStr_joinCS (l : List Str) : lowerStr (joinCS l) = joinCS (l.map lowerStr) := by
  induction l with
  | nil => rfl
  | cons t ts ih =>
    cases ts with
    | nil => rfl
    | cons u ts' =>
      rw [joinCS_cons_cons, lowerStr_append, List.map_cons, List.map_cons,
        joinCS_cons_cons, ← List.map_cons, ← ih]
      rfl

theorem joinCS_ne_nil {l : List Str} (hl : l ≠ []) (h : ∀ t ∈ l, t ≠ []) :
    joinCS l ≠ [] := by
  cases l with
  | nil => exact absurd rfl hl
  | cons t ts =>
    cases ts with
    | nil => exact h t (by simp)
    | cons u ts' => simp [joinCS_cons_cons]

/-- Splitting a `", "`-join back on `','` and re-normalising each piece
recovers the normalised tags. -/
theorem stripLower_splitOnPred_joinCS :
    ∀ (t : Str) (ts : List Str),
    (∀ u ∈ t :: ts, ∀ c ∈ u, isCommaChar c = false) →
    (splitOnPred isCommaChar (joinCS (t :: ts))).map stripLower =
      (t :: ts).map stripLower := by
  intro t ts
  induction ts generalizing t with
  | nil =>
    intro h
    rw [show joinCS [t] = t from rfl, splitOnPred_sepFree (h t (by simp))]
  | cons u ts' ih =>
    intro h
    rw [joinCS_cons_cons,
      splitOnPred_append_sep _ (h t (by simp)) (by decide)]
    cases hsp : splitOnPred isCommaChar (joinCS (u :: ts')) with
    | nil => exact absurd hsp (splitOnPred_ne_nil _ _)
    | cons v vs =>
      have hcons : splitOnPred isCommaChar (' ' :: joinCS (u :: ts')) =
          (' ' :: v) :: vs := splitOnPred_cons_neg (by decide) hsp
      rw [hcons]
      have ihu : (splitOnPred isCommaChar (joinCS (u :: ts'))).map stripLower =
          (u :: ts').map stripLower :=
        ih u (fun w hw => h w (List.mem_cons_of_mem t hw))
      rw [hsp] at ihu
      simp only [List.map_cons, List.cons.injEq] at ihu
      simp only [List.map_cons]
      rw [stripLower_cons_space, ihu.1, ihu.2]

/-! ### cleanse and processedList lemmas -/

theorem mem_cleanse {pn : Str} {A l : List Str} {t : Str} (h : t ∈ cleanse pn A l) :
    t ∈ l ∧ t ≠ [] ∧ t ≠ pokemonTag pn ∧ t ∉ A := by
  unfold cleanse at h
  have h1 := (mem_dedupSeen _ _).mp h
  have h2 := List.mem_filter.mp h1.1
  have h3 := List.mem_filter.mp h2.1
  have h4 := List.mem_filter.mp h3.1
  exact ⟨h4.1, of_decide_eq_true h4.2, of_decide_eq_true h3.2, of_decide_eq_true h2.2⟩

theorem cleanse_nodup (pn : Str) (A l : List Str) : (cleanse pn A l).Nodup :=
  nodup_dedupSeen _ _

theorem cleanse_eq_self {pn : Str} {A l : List Str} (hnd : l.Nodup)
    (h : ∀ t ∈ l, t ≠ [] ∧ t ≠ pokemonTag pn ∧ t ∉ A) : cleanse pn A l = l := by
  unfold cleanse
  have e1 : l.filter (fun t => decide (t ≠ [])) = l :=
    List.filter_eq_self.mpr (fun a ha => decide_eq_true (h a ha).1)
  rw [e1]
  have e2 : l.filter (fun t => decide (t ≠ pokemonTag pn)) = l :=
    List.filter_eq_self.mpr (fun a ha => decide_eq_true (h a ha).2.1)
  rw [e2]
  have e3 : l.filter (fun t => decide (t ∉ A)) = l :=
    List.filter_eq_self.mpr (fun a ha => decide_eq_true (h a ha).2.2)
  rw [e3]
  exact dedupSeen_eq_self hnd (fun t _ => List.not_mem_nil t)

theorem processedList_mem_clean {s pn : Str} {A : List Str} {t : Str}
    (h : t ∈ processedList s pn A) : IsCleanTag pn A t := by
  unfold processedList at h
  obtain ⟨hmem, hne, hptag, hA⟩ := mem_cleanse h
  obtain ⟨piece, hpiece, rfl⟩ := List.mem_map.mp hmem
  refine ⟨hne, strip_stripLower piece, lowerStr_stripLower piece, ?_, hptag, hA⟩
  intro c hc
  simp only [stripLower, lowerStr] at hc
  obtain ⟨d, hd, rfl⟩ := List.mem_map.mp hc
  rw [isCommaChar_lowerChar]
  exact (mem_mem_splitOnPred hpiece (mem_strip hd)).2

theorem processedList_nodup (s pn : Str) (A : List Str) :
    (processedList s pn A).Nodup := cleanse_nodup _ _ _

/-! ### Trigger-tag facts -/

theorem all_nameChar_of_all_lower {s : Str} (h : s.all isLowerNameChar = true) :
    s.all isNameChar = true := by
  rw [List.all_eq_true] at h ⊢
  exact fun c hc => isNameChar_of_lower (h c hc)

theorem lowerStr_all_nameChar {s : Str} (h : s.all isNameChar = true) :
    (lowerStr s).all isNameChar = true := by
  rw [List.all_eq_true] at h ⊢
  intro c hc
  obtain ⟨d, hd, rfl⟩ := List.mem_map.mp hc
  exact isNameChar_lowerChar (h d hd)

theorem capitalizedConcat_all_nameChar {name : Str} (h : name.all isNameChar = true) :
    (capitalizedConcat name).all isNameChar = true := by
  rw [List.all_eq_true] at h ⊢
  intro c hc
  unfold capitalizedConcat at hc
  rw [List.mem_flatten] at hc
  obtain ⟨part', hpart', hc⟩ := hc
  obtain ⟨part, hpart, rfl⟩ := List.mem_map.mp hpart'
  cases part with
  | nil => simp [pyCapitalize] at hc
  | cons d ds =>
    simp only [pyCapitalize, lowerStr] at hc
    rcases List.mem_cons.mp hc with h1 | h1
    · subst h1
      exact isNameChar_upperChar (h d (mem_mem_splitOnPred hpart (by simp)).1)
    · obtain ⟨e, he, rfl⟩ := List.mem_map.mp h1
      exact isNameChar_lowerChar (h e (mem_mem_splitOnPred hpart (by simp [he])).1)

theorem triggerTag_all_nameChar {name : Str} (h : name.all isNameChar = true) :
    (triggerTag name).all isNameChar = true := by
  rw [List.all_eq_true]
  intro c hc
  simp only [triggerTag, List.mem_append, or_assoc] at hc
  rcases hc with h1 | h1 | h1
  · exact List.all_eq_true.mp (show (("zz".data : Str)).all isNameChar = true by decide) c h1
  · exact List.all_eq_true.mp (capitalizedConcat_all_nameChar h) c h1
  · exact List.all_eq_true.mp
      (show (("C1tr0n".data : Str)).all isNameChar = true by decide) c h1

theorem triggerTag_ne_nil (name : Str) : triggerTag name ≠ [] := by
  intro hc
  have hl := congrArg List.length hc
  have h2 : ("zz".data).length = 2 := by decide
  have h6 : ("C1tr0n".data).length = 6 := by decide
  rw [triggerTag, List.length_append, List.length_append, h2, h6] at hl
  simp at hl

theorem strip_triggerTag {name : Str} (hn : name.all isNameChar = true) :
    strip (triggerTag name) = triggerTag name :=
  strip_eq_self_of_all (fun c hc =>
    isSpaceChar_false_of_nameChar (List.all_eq_true.mp (triggerTag_all_nameChar hn) c hc))

theorem commaFree_triggerTag {name : Str} (hn : name.all isNameChar = true) :
    ∀ c ∈ triggerTag name, isCommaChar c = false := fun c hc =>
  isCommaChar_false_of_nameChar (List.all_eq_true.mp (triggerTag_all_nameChar hn) c hc)

theorem lowerStr_triggerTag_ne (name : Str) :
    lowerStr (triggerTag name) ≠ triggerTag name := by
  intro hc
  have hassoc : triggerTag name =
      ("zz".data ++ capitalizedConcat name) ++ "C1tr0n".data := by
    rw [triggerTag, List.append_assoc]
  rw [hassoc, lowerStr_append] at hc
  have h2 := (List.append_inj' hc (lowerStr_length _)).2
  exact absurd h2 (by decide)

theorem ne_pokemonTag_of_all_nameChar {t name : Str} (ht : t.all isNameChar = true) :
    t ≠ pokemonTag name := by
  intro hc
  have hp : '(' ∈ pokemonTag name := by
    rw [pokemonTag, List.mem_append]
    right
    decide
  rw [← hc] at hp
  exact ne_lparen_of_nameChar (List.all_eq_true.mp ht '(' hp) rfl

theorem stripLower_triggerTag {name : Str} (hn : name.all isNameChar = true) :
    stripLower (triggerTag name) = lowerStr (triggerTag name) := by
  rw [stripLower, strip_triggerTag hn]

theorem lowerStr_triggerTag_ne_nil (name : Str) : lowerStr (triggerTag name) ≠ [] := by
  intro hc
  rw [lowerStr, List.map_eq_nil_iff] at hc
  exact triggerTag_ne_nil name hc

theorem lowerStr_triggerTag_clean {name : Str} {A : List Str}
    (hn : name.all isNameChar = true) (hA : lowerStr (triggerTag name) ∉ A) :
    IsCleanTag name A (lowerStr (triggerTag name)) := by
  refine ⟨lowerStr_triggerTag_ne_nil name, ?_, lowerStr_lowerStr _, ?_, ?_, hA⟩
  · rw [strip_lowerStr, strip_triggerTag hn]
  · intro c hc
    exact isCommaChar_false_of_nameChar
      (List.all_eq_true.mp (lowerStr_all_nameChar (triggerTag_all_nameChar hn)) c hc)
  · exact ne_pokemonTag_of_all_nameChar (lowerStr_all_nameChar (triggerTag_all_nameChar hn))

/-! ### Re-processing a processed output -/

theorem map_stripLower_eq_self {l : List Str}
    (h : ∀ t ∈ l, strip t = t ∧ lowerStr t = t) : l.map stripLower = l := by
  induction l with
  | nil => rfl
  | cons t ts ih =>
    rw [List.map_cons, stripLower_eq_self (h t (by simp)).1 (h t (by simp)).2,
      ih (fun u hu => h u (by simp [hu]))]

theorem cleanse_cons_clean {pn : Str} {A l : List Str} {t : Str}
    (h1 : t ≠ []) (h2 : t ≠ pokemonTag pn)
    (hnd : l.Nodup) (hcl : ∀ u ∈ l, u ≠ [] ∧ u ≠ pokemonTag pn ∧ u ∉ A)
    (hnotin : t ∉ l) :
    cleanse pn A (t :: l) = if t ∈ A then l else t :: l := by
  unfold cleanse
  have f1 : (t :: l).filter (fun u => decide (u ≠ [])) = t :: l :=
    List.filter_eq_self.mpr (by
      intro u hu
      rcases List.mem_cons.mp hu with h | h
      · exact decide_eq_true (h ▸ h1)
      · exact decide_eq_true (hcl u h).1)
  rw [f1]
  have f2 : (t :: l).filter (fun u => decide (u ≠ pokemonTag pn)) = t :: l :=
    List.filter_eq_self.mpr (by
      intro u hu
      rcases List.mem_cons.mp hu with h | h
      · exact decide_eq_true (h ▸ h2)
      · exact decide_eq_true (hcl u h).2.1)
  rw [f2]
  by_cases hA : t ∈ A
  · rw [List.filter_cons]
    have hd : (decide (t ∉ A)) = false := decide_eq_false (by simpa using hA)
    rw [hd]
    simp only [Bool.false_eq_true, if_false]
    rw [List.filter_eq_self.mpr (fun u hu => decide_eq_true (hcl u hu).2.2)]
    rw [if_pos hA]
    exact dedupSeen_eq_self hnd (fun u _ => List.not_mem_nil u)
  · have f3 : (t :: l).filter (fun u => decide (u ∉ A)) = t :: l :=
      List.filter_eq_self.mpr (by
        intro u hu
        rcases List.mem_cons.mp hu with h | h
        · exact decide_eq_true (h ▸ hA)
        · exact decide_eq_true (hcl u h).2.2)
    rw [f3, if_neg hA]
    unfold dedupSeen
    rw [if_neg (List.not_mem_nil t)]
    congr 1
    apply dedupSeen_eq_self hnd
    intro u hu hmem
    exact hnotin (List.mem_singleton.mp hmem ▸ hu)

/-- Re-processing the join of a non-empty clean, duplicate-free tag list
reproduces it unchanged. -/
theorem processedList_joinCS_clean {pn : Str} {A l : List Str}
    (hl : l ≠ []) (hclean : ∀ t ∈ l, IsCleanTag pn A t) (hnd : l.Nodup) :
    processedList (joinCS l) pn A = l := by
  cases l with
  | nil => exact absurd rfl hl
  | cons t ts =>
    unfold processedList
    rw [stripLower_splitOnPred_joinCS t ts
      (fun u hu c hc => (hclean u hu).2.2.2.1 c hc)]
    rw [map_stripLower_eq_self (fun u hu => ⟨(hclean u hu).2.1, (hclean u hu).2.2.1⟩)]
    exact cleanse_eq_self hnd
      (fun u hu => ⟨(hclean u hu).1, (hclean u hu).2.2.2.2.1, (hclean u hu).2.2.2.2.2⟩)

/-- Re-processing the join of a clean list with the (mixed-case) trigger tag
prepended: the trigger piece is lower-cased; it survives unless absorbed. -/
theorem processedList_joinCS_trigger {pn : Str} {A l : List Str}
    (hn : pn.all isNameChar = true)
    (hclean : ∀ t ∈ l, IsCleanTag pn A t) (hnd : l.Nodup)
    (hnotin : lowerStr (triggerTag pn) ∉ l) :
    processedList (joinCS (triggerTag pn :: l)) pn A =
      if lowerStr (triggerTag pn) ∈ A then l else lowerStr (triggerTag pn) :: l := by
  unfold processedList
  rw [stripLower_splitOnPred_joinCS (triggerTag pn) l (by
    intro u hu c hc
    rcases List.mem_cons.mp hu with h1 | h1
    · subst h1; exact commaFree_triggerTag hn c hc
    · exact (hclean u h1).2.2.2.1 c hc)]
  rw [List.map_cons, stripLower_triggerTag hn,
    map_stripLower_eq_self (fun u hu => ⟨(hclean u hu).2.1, (hclean u hu).2.2.1⟩)]
  exact cleanse_cons_clean (lowerStr_triggerTag_ne_nil pn)
    (ne_pokemonTag_of_all_nameChar (lowerStr_all_nameChar (triggerTag_all_nameChar hn)))
    hnd
    (fun u hu => ⟨(hclean u hu).1, (hclean u hu).2.2.2.2.1, (hclean u hu).2.2.2.2.2⟩)
    hnotin

theorem process_tags_eq (s pn : Str) (A : List Str) :
    process_tags s pn A =
      joinCS (if lowerStr (triggerTag pn) ∈ processedList s pn A
        then processedList s pn A
        else triggerTag pn :: processedList s pn A) := rfl

/-! ### Classifier lemmas -/

theorem matchNameSuffix_append {pre sfx lit : Str} (hne : pre ≠ [])
    (hall : pre.all isNameChar = true) (hlow : lowerStr sfx = lowerStr lit)
    (hlen : sfx.length = lit.length) :
    matchNameSuffix lit (pre ++ sfx) = some pre := by
  unfold matchNameSuffix
  have hL : (pre ++ sfx).length - lit.length = pre.length := by
    rw [List.length_append]
    omega
  rw [hL, List.take_left, List.drop_left]
  rw [if_pos ⟨by rw [List.length_append]; have := List.length_pos.mpr hne; omega, hlow, hall⟩]

theorem matchNameSuffix_some {lit s t : Str} (h : matchNameSuffix lit s = some t) :
    t ≠ [] ∧ t.all isNameChar = true := by
  unfold matchNameSuffix at h
  by_cases hc : lit.length < s.length ∧
      lowerStr (s.drop (s.length - lit.length)) = lowerStr lit ∧
      (s.take (s.length - lit.length)).all isNameChar
  · rw [if_pos hc] at h
    injection h with h
    subst h
    refine ⟨?_, hc.2.2⟩
    intro hnil
    have := congrArg List.length hnil
    rw [List.length_take] at this
    simp only [List.length_nil] at this
    omega
  · rw [if_neg hc] at h
    exact absurd h (by simp)

theorem extract_eq_format1 {fn t : Str}
    (h : matchNameSuffix ("Pokedex_IXL".data) fn = some t) :
    extract_pokemon_name fn = some (lowerStr t) := by
  unfold extract_pokemon_name
  rw [h]

theorem lowerStr_shape {u : Str} (h1 : u ≠ []) (h2 : u.all isNameChar = true) :
    lowerStr u ≠ [] ∧ (lowerStr u).all isLowerNameChar = true := by
  constructor
  · intro hc
    rw [lowerStr, List.map_eq_nil_iff] at hc
    exact h1 hc
  · rw [List.all_eq_true]
    intro c hc
    obtain ⟨d, hd, rfl⟩ := List.mem_map.mp hc
    exact isLowerNameChar_lowerChar (List.all_eq_true.mp h2 d hd)

/-- Whatever `extract_pokemon_name` returns is a non-empty string of
lowercase name characters. -/
theorem extract_some_shape {fn t : Str} (h : extract_pokemon_name fn = some t) :
    t ≠ [] ∧ t.all isLowerNameChar = true := by
  unfold extract_pokemon_name at h
  cases h1 : matchNameSuffix ("Pokedex_IXL".data) fn with
  | some u =>
    rw [h1] at h
    simp only [Option.some.injEq] at h
    obtain ⟨hu1, hu2⟩ := matchNameSuffix_some h1
    exact h ▸ lowerStr_shape hu1 hu2
  | none =>
  rw [h1] at h
  cases h2 : matchNameSuffix ("_(pokemon)".data) fn with
  | some u =>
    rw [h2] at h
    simp only [Option.some.injEq] at h
    obtain ⟨hu1, hu2⟩ := matchNameSuffix_some h2
    exact h ▸ lowerStr_shape hu1 hu2
  | none =>
  rw [h2] at h
  cases h3 : matchNameSuffix ("_pokemon".data) fn with
  | some u =>
    rw [h3] at h
    simp only [Option.some.injEq] at h
    obtain ⟨hu1, hu2⟩ := matchNameSuffix_some h3
    exact h ▸ lowerStr_shape hu1 hu2
  | none =>
  rw [h3] at h
  by_cases h4 : fn ≠ [] ∧ fn.all isNameChar = true ∧
      containsSub ("pokedex".data) (lowerStr fn) = false ∧
      containsSub ("(pokemon)".data) (lowerStr fn) = false
  · rw [if_pos h4] at h
    simp only [Option.some.injEq] at h
    exact h ▸ lowerStr_shape h4.1 h4.2.1
  · rw [if_neg h4] at h
    exact absurd h (by simp)

/-- C4: for every string of the shape `<name>Pokedex_IXL`, where `<name>` is
one or more letters, digits, underscores or hyphens and the suffix
`Pokedex_IXL` matches case-insensitively, the classifier returns `<name>`
lowercased; in particular `classify("PikachuPokedex_IXL") = "pikachu"`. -/
theorem claim_C4 :
    (∀ (name sfx : Str), name ≠ [] → name.all isNameChar = true →
      lowerStr sfx = lowerStr ("Pokedex_IXL".data) →
      extract_pokemon_name (name ++ sfx) = some (lowerStr name)) ∧
    extract_pokemon_name ("PikachuPokedex_IXL".data) = some ("pikachu".data) := by
  constructor
  · intro name sfx h1 h2 h3
    have hlen : sfx.length = ("Pokedex_IXL".data).length := by
      have := congrArg List.length h3
      rwa [lowerStr_length, lowerStr_length] at this
    exact extract_eq_format1 (matchNameSuffix_append h1 h2 h3 hlen)
  · decide

/-- Witness for C4: the general part applied to the concrete split
`"SnorLax" ++ "pokedex_ixl"`, with each hypothesis discharged there. -/
theorem claim_C4_witness :
    (("SnorLax".data : Str) ≠ [] ∧ ("SnorLax".data : Str).all isNameChar = true ∧
      lowerStr ("pokedex_ixl".data) = lowerStr ("Pokedex_IXL".data)) ∧
    extract_pokemon_name ("SnorLax".data ++ "pokedex_ixl".data) =
      some (lowerStr ("SnorLax".data)) :=
  ⟨⟨by decide, by decide, by decide⟩,
    claim_C4.1 ("SnorLax".data) ("pokedex_ixl".data) (by decide) (by decide) (by decide)⟩

/-- C5: a folder name over the name alphabet that contains `"pokedex"`
case-insensitively but matches none of the three suffix patterns is
unrecognized: the bare-name fallback never fires for it. -/
theorem claim_C5 (fn : Str) (hall : fn.all isNameChar = true)
    (hsub : containsSub ("pokedex".data) (lowerStr fn) = true)
    (h1 : matchNameSuffix ("Pokedex_IXL".data) fn = none)
    (h2 : matchNameSuffix ("_(pokemon)".data) fn = none)
    (h3 : matchNameSuffix ("_pokemon".data) fn = none) :
    extract_pokemon_name fn = none := by
  unfold extract_pokemon_name
  rw [h1, h2, h3]
  rw [if_neg]
  intro hc
  rw [hc.2.2.1] at hsub
  exact Bool.false_ne_true hsub

/-- Witness for C5 at `"pokedex123"`. -/
theorem claim_C5_witness :
    (("pokedex123".data : Str).all isNameChar = true ∧
      containsSub ("pokedex".data) (lowerStr ("pokedex123".data)) = true ∧
      matchNameSuffix ("Pokedex_IXL".data) ("pokedex123".data) = none ∧
      matchNameSuffix ("_(pokemon)".data) ("pokedex123".data) = none ∧
      matchNameSuffix ("_pokemon".data) ("pokedex123".data) = none) ∧
    extract_pokemon_name ("pokedex123".data) = none :=
  ⟨⟨by decide, by decide, by decide, by decide, by decide⟩,
    claim_C5 ("pokedex123".data) (by decide) (by decide) (by decide) (by decide) (by decide)⟩

/-- C9: on any input, the classifier returns nothing or a non-empty string
of lowercase letters, digits, underscores and hyphens. -/
theorem claim_C9 (fn t : Str) (h : extract_pokemon_name fn = some t) :
    t ≠ [] ∧ t.all isLowerNameChar = true := extract_some_shape h

/-- Witness for C9 at `"Mr-Mime"`. -/
theorem claim_C9_witness :
    extract_pokemon_name ("Mr-Mime".data) = some ("mr-mime".data) ∧
    (("mr-mime".data : Str) ≠ [] ∧ ("mr-mime".data : Str).all isLowerNameChar = true) :=
  ⟨by decide, claim_C9 ("Mr-Mime".data) ("mr-mime".data) (by decide)⟩

/-- C2 fails as stated: `"Mr-Mime"` is recognized (subject `"mr-mime"`), but
the canonicalizer drops the hyphen, so re-classifying the canonical folder
name yields `"mrmime"`, not `"mr-mime"`. -/
theorem claim_C2_counterexample :
    extract_pokemon_name ("Mr-Mime".data) = some ("mr-mime".data) ∧
    extract_pokemon_name (get_standard_folder_name ("mr-mime".data)) =
      some ("mrmime".data) ∧
    ("mrmime".data : Str) ≠ ("mr-mime".data : Str) :=
  ⟨by decide, by decide, by decide⟩

/-- C2 amended: for every recognized folder name whose extracted subject name
contains no underscore and no hyphen, re-classifying the canonical folder
name reproduces the same subject name. -/
theorem claim_C2_amended (x t : Str) (h : extract_pokemon_name x = some t)
    (hsep : ∀ c ∈ t, isSepChar c = false) :
    extract_pokemon_name (get_standard_folder_name t) = extract_pokemon_name x := by
  obtain ⟨hne, hall⟩ := extract_some_shape h
  have hcap : capitalizedConcat t = pyCapitalize t := by
    unfold capitalizedConcat
    rw [splitOnPred_sepFree hsep]
    simp
  have hpne : pyCapitalize t ≠ [] := by
    cases t with
    | nil => exact absurd rfl hne
    | cons c cs => simp [pyCapitalize]
  have hpall : (pyCapitalize t).all isNameChar = true := by
    cases t with
    | nil => rfl
    | cons c cs =>
      rw [List.all_eq_true]
      intro d hd
      simp only [pyCapitalize, lowerStr] at hd
      rcases List.mem_cons.mp hd with h1 | h1
      · subst h1
        exact isNameChar_upperChar (isNameChar_of_lower (List.all_eq_true.mp hall c (by simp)))
      · obtain ⟨e, he, rfl⟩ := List.mem_map.mp h1
        exact isNameChar_lowerChar
          (isNameChar_of_lower (List.all_eq_true.mp hall e (by simp [he])))
  have hlow : lowerStr (pyCapitalize t) = t := by
    cases t with
    | nil => rfl
    | cons c cs =>
      have h1 : lowerChar c = c :=
        lowerChar_eq_self_of_lower (List.all_eq_true.mp hall c (by simp))
      have h2 : lowerStr cs = cs :=
        lowerStr_eq_self_of_all (fun e he =>
          lowerChar_eq_self_of_lower (List.all_eq_true.mp hall e (by simp [he])))
      show lowerChar (upperChar c) :: lowerStr (lowerStr cs) = c :: cs
      rw [lowerChar_upperChar, h1, h2, h2]
  have hmatch : matchNameSuffix ("Pokedex_IXL".data)
      (pyCapitalize t ++ "Pokedex_IXL".data) = some (pyCapitalize t) :=
    matchNameSuffix_append hpne hpall rfl rfl
  rw [get_standard_folder_name, hcap, extract_eq_format1 hmatch, hlow, h]

/-- Witness for C2 amended at `x = "PikachuPokedex_IXL"`. -/
theorem claim_C2_amended_witness :
    (extract_pokemon_name ("PikachuPokedex_IXL".data) = some ("pikachu".data) ∧
      (∀ c ∈ ("pikachu".data : Str), isSepChar c = false)) ∧
    extract_pokemon_name (get_standard_folder_name ("pikachu".data)) =
      extract_pokemon_name ("PikachuPokedex_IXL".data) :=
  ⟨⟨by decide, by decide⟩,
    claim_C2_amended ("PikachuPokedex_IXL".data) ("pikachu".data) (by decide) (by decide)⟩

/-- C6 fails as stated: for the recognized folder `"Mr-Mime"` the string
passed to the validator is `"mr-mime".capitalize() = "Mr-mime"`, not the
capitalized-word form `"MrMime"` used for the trigger tag. -/
theorem claim_C6_counterexample :
    extract_pokemon_name ("Mr-Mime".data) = some ("mr-mime".data) ∧
    validation_argument ("mr-mime".data) ≠ capitalizedConcat ("mr-mime".data) :=
  ⟨by decide, by decide⟩

/-- C6 amended: the validator receives `pokemon_name.capitalize()` (whole
name, first letter only); this coincides with the capitalized-word form
exactly when the subject name contains no underscore and no hyphen. -/
theorem claim_C6_amended (fn t : Str) (h : extract_pokemon_name fn = some t)
    (hsep : ∀ c ∈ t, isSepChar c = false) :
    validation_argument t = capitalizedConcat t := by
  rw [validation_argument, capitalizedConcat, splitOnPred_sepFree hsep]
  simp

/-- Witness for C6 amended at the recognized folder `"pikachu"`. -/
theorem claim_C6_amended_witness :
    (extract_pokemon_name ("pikachu".data) = some ("pikachu".data) ∧
      (∀ c ∈ ("pikachu".data : Str), isSepChar c = false)) ∧
    validation_argument ("pikachu".data) = capitalizedConcat ("pikachu".data) :=
  ⟨⟨by decide, by decide⟩,
    claim_C6_amended ("pikachu".data) ("pikachu".data) (by decide) (by decide)⟩

/-- C7: when two candidate folders canonicalize to the same target name, the
first is renamed, the second rename attempt is skipped (it never enters the
rename map), the second folder remains in the directory under its original
name, and path re-resolution still processes it under that original name. -/
theorem claim_C7 (fs : List Str) (A B T : Str)
    (hA : A ∈ fs) (hB : B ∈ fs) (hAB : A ≠ B) (hT : T ∉ fs) :
    (rename_folders ⟨fs, []⟩ [(A, T), (B, T)]).rename_map = [(A, T)] ∧
    B ∈ (rename_folders ⟨fs, []⟩ [(A, T), (B, T)]).folders ∧
    resolve (rename_folders ⟨fs, []⟩ [(A, T), (B, T)]).rename_map B = B ∧
    resolve (rename_folders ⟨fs, []⟩ [(A, T), (B, T)]).rename_map A = T ∧
    T ∈ (rename_folders ⟨fs, []⟩ [(A, T), (B, T)]).folders ∧
    A ∉ (rename_folders ⟨fs, []⟩ [(A, T), (B, T)]).folders := by
  have step1 : rename_step ⟨fs, []⟩ A T =
      ⟨fs.map (fun f => if f = A then T else f), [(A, T)]⟩ := by
    unfold rename_step
    rw [if_neg hT]
    simp
  have hTmem : T ∈ fs.map (fun f => if f = A then T else f) :=
    List.mem_map.mpr ⟨A, hA, by rw [if_pos rfl]⟩
  have hst : rename_folders ⟨fs, []⟩ [(A, T), (B, T)] =
      ⟨fs.map (fun f => if f = A then T else f), [(A, T)]⟩ := by
    show rename_folders (rename_step (rename_step ⟨fs, []⟩ A T) B T) [] = _
    rw [step1]
    show rename_step _ B T = _
    unfold rename_step
    rw [if_pos hTmem]
  rw [hst]
  refine ⟨rfl, ?_, ?_, ?_, hTmem, ?_⟩
  · exact List.mem_map.mpr ⟨B, hB, by rw [if_neg (fun h => hAB h.symm)]⟩
  · show resolve [(A, T)] B = B
    simp [resolve, List.find?, hAB]
  · show resolve [(A, T)] A = T
    simp [resolve, List.find?]
  · intro hmem
    obtain ⟨x, hx, hfx⟩ := List.mem_map.mp hmem
    by_cases hxA : x = A
    · rw [if_pos hxA] at hfx
      exact hT (hfx ▸ hA)
    · rw [if_neg hxA] at hfx
      exact hxA hfx

/-- Witness for C7: `mew_pokemon` and `Mew_(pokemon)` both canonicalize to
`MewPokedex_IXL`; the collision scenario run on a concrete directory. -/
theorem claim_C7_witness :
    (("mew_pokemon".data : Str) ∈ [("mew_pokemon".data : Str), "Mew_(pokemon)".data] ∧
      ("Mew_(pokemon)".data : Str) ∈ [("mew_pokemon".data : Str), "Mew_(pokemon)".data] ∧
      ("mew_pokemon".data : Str) ≠ "Mew_(pokemon)".data ∧
      ("MewPokedex_IXL".data : Str) ∉ [("mew_pokemon".data : Str), "Mew_(pokemon)".data]) ∧
    (rename_folders ⟨[("mew_pokemon".data : Str), "Mew_(pokemon)".data], []⟩
        [("mew_pokemon".data, "MewPokedex_IXL".data),
         ("Mew_(pokemon)".data, "MewPokedex_IXL".data)]).rename_map =
      [("mew_pokemon".data, "MewPokedex_IXL".data)] ∧
    resolve [("mew_pokemon".data, "MewPokedex_IXL".data)] ("Mew_(pokemon)".data) =
      "Mew_(pokemon)".data :=
  ⟨⟨by decide, by decide, by decide, by decide⟩,
    (claim_C7 [("mew_pokemon".data : Str), "Mew_(pokemon)".data]
      ("mew_pokemon".data) ("Mew_(pokemon)".data) ("MewPokedex_IXL".data)
      (by decide) (by decide) (by decide) (by decide)).1,
    by decide⟩

/-! ### Idempotence-related results for the tag processor -/

/-- The second application of `process_tags` is a fixed point. -/
theorem process_tags_stable (s pn : Str) (A : List Str)
    (hn : pn.all isNameChar = true) :
    process_tags (process_tags (process_tags s pn A) pn A) pn A =
      process_tags (process_tags s pn A) pn A := by
  have hclean : ∀ t ∈ processedList s pn A, IsCleanTag pn A t :=
    fun t ht => processedList_mem_clean ht
  have hnd := processedList_nodup s pn A
  by_cases hmem : lowerStr (triggerTag pn) ∈ processedList s pn A
  · have hfix : process_tags (process_tags s pn A) pn A = process_tags s pn A := by
      rw [process_tags_eq s pn A, if_pos hmem,
        process_tags_eq (joinCS (processedList s pn A)) pn A,
        processedList_joinCS_clean (List.ne_nil_of_mem hmem) hclean hnd, if_pos hmem]
    rw [hfix, hfix]
  · by_cases hA : lowerStr (triggerTag pn) ∈ A
    · have hfix : process_tags (process_tags s pn A) pn A = process_tags s pn A := by
        rw [process_tags_eq s pn A, if_neg hmem,
          process_tags_eq (joinCS (triggerTag pn :: processedList s pn A)) pn A,
          processedList_joinCS_trigger hn hclean hnd hmem, if_pos hA, if_neg hmem]
      rw [hfix, hfix]
    · have e2 : process_tags (process_tags s pn A) pn A =
          joinCS (lowerStr (triggerTag pn) :: processedList s pn A) := by
        rw [process_tags_eq s pn A, if_neg hmem,
          process_tags_eq (joinCS (triggerTag pn :: processedList s pn A)) pn A,
          processedList_joinCS_trigger hn hclean hnd hmem, if_neg hA, if_pos (by simp)]
      rw [e2]
      have hclean2 : ∀ t ∈ lowerStr (triggerTag pn) :: processedList s pn A,
          IsCleanTag pn A t := by
        intro t ht
        rcases List.mem_cons.mp ht with h1 | h1
        · subst h1
          exact lowerStr_triggerTag_clean hn hA
        · exact hclean t h1
      have hnd2 : (lowerStr (triggerTag pn) :: processedList s pn A).Nodup :=
        List.nodup_cons.mpr ⟨hmem, hnd⟩
      rw [process_tags_eq (joinCS (lowerStr (triggerTag pn) :: processedList s pn A)) pn A,
        processedList_joinCS_clean (by simp) hclean2 hnd2, if_pos (by simp)]

/-- Applying `process_tags` twice changes the output at most in letter case
(the prepended trigger tag is lower-cased by the second pass). -/
theorem process_tags_lower_idem (s pn : Str) (A : List Str)
    (hn : pn.all isNameChar = true) :
    lowerStr (process_tags (process_tags s pn A) pn A) =
      lowerStr (process_tags s pn A) := by
  have hclean : ∀ t ∈ processedList s pn A, IsCleanTag pn A t :=
    fun t ht => processedList_mem_clean ht
  have hnd := processedList_nodup s pn A
  by_cases hmem : lowerStr (triggerTag pn) ∈ processedList s pn A
  · rw [process_tags_eq s pn A, if_pos hmem,
      process_tags_eq (joinCS (processedList s pn A)) pn A,
      processedList_joinCS_clean (List.ne_nil_of_mem hmem) hclean hnd, if_pos hmem]
  · by_cases hA : lowerStr (triggerTag pn) ∈ A
    · rw [process_tags_eq s pn A, if_neg hmem,
        process_tags_eq (joinCS (triggerTag pn :: processedList s pn A)) pn A,
        processedList_joinCS_trigger hn hclean hnd hmem, if_pos hA, if_neg hmem]
    · rw [process_tags_eq s pn A, if_neg hmem,
        process_tags_eq (joinCS (triggerTag pn :: processedList s pn A)) pn A,
        processedList_joinCS_trigger hn hclean hnd hmem, if_neg hA, if_pos (by simp),
        lowerStr_joinCS, lowerStr_joinCS, List.map_cons, List.map_cons,
        lowerStr_lowerStr]

/-- C1 fails as stated: the trigger tag is prepended with mixed case, and a
second pass lower-cases it, so `process_tags` is not literally idempotent. -/
theorem claim_C1_counterexample :
    process_tags (process_tags [] ("pikachu".data) []) ("pikachu".data) [] ≠
      process_tags [] ("pikachu".data) [] := by decide

/-- C1 amended: for every tag string, subject name (lowercase, over the name
alphabet) and absorb set of lowercase strings, `process_tags` is idempotent
up to letter case: the outputs of one and two applications agree after
lower-casing (they can differ only in the casing of the leading trigger
tag). -/
theorem claim_C1_amended (s pn : Str) (A : List Str)
    (hn : pn.all isLowerNameChar = true) (hA : ∀ a ∈ A, lowerStr a = a) :
    lowerStr (process_tags (process_tags s pn A) pn A) =
      lowerStr (process_tags s pn A) :=
  process_tags_lower_idem s pn A (all_nameChar_of_all_lower hn)

/-- Witness for C1 amended on a concrete tag line. -/
theorem claim_C1_amended_witness :
    ((("eevee".data : Str).all isLowerNameChar = true ∧
      (∀ a ∈ [("bird".data : Str)], lowerStr a = a)) ∧
    lowerStr (process_tags
        (process_tags ("cute, Eevee_(pokemon), bird".data) ("eevee".data)
          [("bird".data : Str)])
        ("eevee".data) [("bird".data : Str)]) =
      lowerStr (process_tags ("cute, Eevee_(pokemon), bird".data) ("eevee".data)
        [("bird".data : Str)])) :=
  ⟨⟨by decide, by decide⟩,
    claim_C1_amended ("cute, Eevee_(pokemon), bird".data) ("eevee".data)
      [("bird".data : Str)] (by decide) (by decide)⟩

/-- C10: for every tag string, subject name (lowercase, over the name
alphabet) and absorb set of lowercase strings, `process_tags` stabilizes
after two applications: the twice-processed string is a fixed point. -/
theorem claim_C10 (s pn : Str) (A : List Str)
    (hn : pn.all isLowerNameChar = true) (hA : ∀ a ∈ A, lowerStr a = a) :
    process_tags (process_tags (process_tags s pn A) pn A) pn A =
      process_tags (process_tags s pn A) pn A :=
  process_tags_stable s pn A (all_nameChar_of_all_lower hn)

/-- Witness for C10 on a concrete tag line. -/
theorem claim_C10_witness :
    ((("pikachu".data : Str).all isLowerNameChar = true ∧
      (∀ a ∈ ([] : List Str), lowerStr a = a)) ∧
    process_tags (process_tags (process_tags [] ("pikachu".data) [])
        ("pikachu".data) []) ("pikachu".data) [] =
      process_tags (process_tags [] ("pikachu".data) []) ("pikachu".data) []) :=
  ⟨⟨by decide, by decide⟩,
    claim_C10 [] ("pikachu".data) [] (by decide) (by decide)⟩

/-- C8: on a tag line all of whose comma-separated pieces trim to nothing,
`process_tags` returns exactly the trigger tag; and `process_tags` never
returns the empty string. -/
theorem claim_C8 :
    (∀ (s pn : Str) (A : List Str),
      (∀ t ∈ splitOnPred isCommaChar s, strip t = []) →
      process_tags s pn A = triggerTag pn) ∧
    (∀ (s pn : Str) (A : List Str), process_tags s pn A ≠ []) := by
  constructor
  · intro s pn A h
    have hempty : processedList s pn A = [] := by
      unfold processedList cleanse
      have h1 : ((splitOnPred isCommaChar s).map stripLower).filter
          (fun t => decide (t ≠ [])) = [] :=
        List.filter_eq_nil_iff.mpr (by
          intro a ha
          obtain ⟨t, ht, rfl⟩ := List.mem_map.mp ha
          simp [stripLower, h t ht, lowerStr])
      rw [h1]
      rfl
    rw [process_tags_eq, hempty, if_neg (List.not_mem_nil _)]
    rfl
  · intro s pn A
    by_cases hmem : lowerStr (triggerTag pn) ∈ processedList s pn A
    · rw [process_tags_eq, if_pos hmem]
      exact joinCS_ne_nil (List.ne_nil_of_mem hmem)
        (fun t ht => (processedList_mem_clean ht).1)
    · rw [process_tags_eq, if_neg hmem]
      refine joinCS_ne_nil (by simp) ?_
      intro t ht
      rcases List.mem_cons.mp ht with h1 | h1
      · exact h1 ▸ triggerTag_ne_nil pn
      · exact (processedList_mem_clean h1).1

/-- Witness for C8: the all-empty-pieces part at the line `" ,  ,"`. -/
theorem claim_C8_witness :
    (∀ t ∈ splitOnPred isCommaChar (" ,  ,".data), strip t = []) ∧
    process_tags (" ,  ,".data) ("eevee".data) [] = triggerTag ("eevee".data) :=
  ⟨by decide, claim_C8.1 (" ,  ,".data) ("eevee".data) [] (by decide)⟩

/-! ### splitOnCS lemmas (for the output-invariant claim) -/

theorem splitOnCS_ne_nil : ∀ s : Str, splitOnCS s ≠ []
  | [] => by simp [splitOnCS]
  | [c] => by simp [splitOnCS]
  | c₁ :: c₂ :: r => by
    by_cases h : c₁ = ',' ∧ c₂ = ' '
    · simp [splitOnCS, h]
    · cases hsp : splitOnCS (c₂ :: r) with
      | nil => exact absurd hsp (splitOnCS_ne_nil (c₂ :: r))
      | cons t ts => simp [splitOnCS, h, hsp]

theorem splitOnCS_commaFree : ∀ {s : Str}, (∀ c ∈ s, c ≠ ',') → splitOnCS s = [s]
  | [], _ => by simp [splitOnCS]
  | [c], _ => by simp [splitOnCS]
  | c₁ :: c₂ :: r, h => by
    have h1 : ¬ (c₁ = ',' ∧ c₂ = ' ') := fun hc => h c₁ (by simp) hc.1
    have ih := splitOnCS_commaFree (s := c₂ :: r) (fun c hc => h c (by simp [hc]))
    simp [splitOnCS, h1, ih]

theorem splitOnCS_append (r : Str) : ∀ {t : Str}, (∀ c ∈ t, c ≠ ',') →
    splitOnCS (t ++ ',' :: ' ' :: r) = t :: splitOnCS r
  | [], _ => by simp [splitOnCS]
  | [c], h => by
    have hc : c ≠ ',' := h c (by simp)
    have hcond : ¬ (c = ',' ∧ (',' : Char) = ' ') := fun hx => hc hx.1
    simp [splitOnCS, hcond]
  | c :: d :: t', h => by
    have hc : c ≠ ',' := h c (by simp)
    have hcond : ¬ (c = ',' ∧ d = ' ') := fun hx => hc hx.1
    have ih := splitOnCS_append r (t := d :: t')
      (fun e he => h e (List.mem_cons_of_mem c he))
    simp only [List.cons_append] at ih ⊢
    simp [splitOnCS, hcond, ih]

theorem splitOnCS_joinCS : ∀ (l : List Str), l ≠ [] →
    (∀ t ∈ l, ∀ c ∈ t, c ≠ ',') → splitOnCS (joinCS l) = l
  | [], h, _ => absurd rfl h
  | [t], _, hc => by
    rw [show joinCS [t] = t from rfl]
    exact splitOnCS_commaFree (hc t (by simp))
  | t :: u :: ts, _, hc => by
    rw [joinCS_cons_cons, splitOnCS_append _ (hc t (by simp))]
    rw [splitOnCS_joinCS (u :: ts) (by simp)
      (fun v hv => hc v (List.mem_cons_of_mem t hv))]

theorem countP_lower_trigger_eq_one {u : List Str} {w : Str} (hnd : u.Nodup)
    (hfix : ∀ e ∈ u, lowerStr e = e) (hl : lowerStr w = w) (hmem : w ∈ u) :
    u.countP (fun e => decide (lowerStr e = w)) = 1 := by
  induction u with
  | nil => simp at hmem
  | cons e es ih =>
    rw [List.countP_cons]
    by_cases hew : e = w
    · subst hew
      have he : lowerStr e = e := hfix e (by simp)
      rw [if_pos (decide_eq_true he)]
      have hzero : es.countP (fun x => decide (lowerStr x = e)) = 0 := by
        rw [List.countP_eq_zero]
        intro a ha hpa
        have hae : lowerStr a = e := of_decide_eq_true hpa
        rw [hfix a (by simp [ha])] at hae
        exact (List.nodup_cons.mp hnd).1 (hae ▸ ha)
      rw [hzero]
    · have he : lowerStr e = e := hfix e (by simp)
      have hne : ¬ (decide (lowerStr e = w) = true) := by
        rw [he]
        simp [hew]
      rw [if_neg hne]
      rcases List.mem_cons.mp hmem with h1 | h1
      · exact absurd h1.symm hew
      · rw [ih (List.nodup_cons.mp hnd).2 (fun x hx => hfix x (by simp [hx])) h1]

/-- C3: splitting the output of `process_tags` on `", "` yields entries with
no empty entry, no case-insensitive duplicates, no entry equal to the
subject's self-referential `<name>_(pokemon)` tag, no entry from the absorb
set, and exactly one entry case-insensitively equal to the trigger tag —
the literal trigger leading the list unless an entry already matched it
case-insensitively. -/
theorem claim_C3 (s pn : Str) (A : List Str)
    (hn : pn.all isLowerNameChar = true) (hA : ∀ a ∈ A, lowerStr a = a) :
    ([] ∉ splitOnCS (process_tags s pn A)) ∧
    ((splitOnCS (process_tags s pn A)).map lowerStr).Nodup ∧
    pokemonTag pn ∉ splitOnCS (process_tags s pn A) ∧
    (∀ e ∈ splitOnCS (process_tags s pn A), e ∉ A) ∧
    (splitOnCS (process_tags s pn A)).countP
      (fun e => decide (lowerStr e = lowerStr (triggerTag pn))) = 1 ∧
    ((splitOnCS (process_tags s pn A)).head? = some (triggerTag pn) ∨
      lowerStr (triggerTag pn) ∈ splitOnCS (process_tags s pn A)) := by
  have hn' : pn.all isNameChar = true := all_nameChar_of_all_lower hn
  have hclean : ∀ t ∈ processedList s pn A, IsCleanTag pn A t :=
    fun t ht => processedList_mem_clean ht
  have hnd := processedList_nodup s pn A
  have hmap : (processedList s pn A).map lowerStr = processedList s pn A := by
    have := List.map_congr_left (l := processedList s pn A) (f := lowerStr) (g := id)
      (fun t ht => (hclean t ht).2.2.1)
    rwa [List.map_id] at this
  by_cases hmem : lowerStr (triggerTag pn) ∈ processedList s pn A
  · have hentries : splitOnCS (process_tags s pn A) = processedList s pn A := by
      rw [process_tags_eq, if_pos hmem]
      exact splitOnCS_joinCS _ (List.ne_nil_of_mem hmem)
        (fun t ht c hc => of_decide_eq_false ((hclean t ht).2.2.2.1 c hc))
    rw [hentries]
    refine ⟨?_, ?_, ?_, fun e he => (hclean e he).2.2.2.2.2, ?_, Or.inr hmem⟩
    · intro h0
      exact (hclean [] h0).1 rfl
    · rw [hmap]
      exact hnd
    · intro hp
      exact (hclean _ hp).2.2.2.2.1 rfl
    · exact countP_lower_trigger_eq_one hnd (fun e he => (hclean e he).2.2.1)
        (lowerStr_lowerStr _) hmem
  · have hentries : splitOnCS (process_tags s pn A) =
        triggerTag pn :: processedList s pn A := by
      rw [process_tags_eq, if_neg hmem]
      refine splitOnCS_joinCS _ (by simp) ?_
      intro t ht c hc
      rcases List.mem_cons.mp ht with h1 | h1
      · subst h1
        exact of_decide_eq_false (commaFree_triggerTag hn' c hc)
      · exact of_decide_eq_false ((hclean t h1).2.2.2.1 c hc)
    rw [hentries]
    refine ⟨?_, ?_, ?_, ?_, ?_, Or.inl rfl⟩
    · intro h0
      rcases List.mem_cons.mp h0 with h1 | h1
      · exact triggerTag_ne_nil pn h1.symm
      · exact (hclean [] h1).1 rfl
    · rw [List.map_cons, hmap]
      exact List.nodup_cons.mpr ⟨hmem, hnd⟩
    · intro hp
      rcases List.mem_cons.mp hp with h1 | h1
      · exact ne_pokemonTag_of_all_nameChar (triggerTag_all_nameChar hn') h1.symm
      · exact (hclean _ h1).2.2.2.2.1 rfl
    · intro e he
      rcases List.mem_cons.mp he with h1 | h1
      · subst h1
        intro heA
        exact lowerStr_triggerTag_ne pn (hA _ heA)
      · exact (hclean e h1).2.2.2.2.2
    · rw [List.countP_cons, if_pos (decide_eq_true rfl)]
      have hzero : (processedList s pn A).countP
          (fun e => decide (lowerStr e = lowerStr (triggerTag pn))) = 0 := by
        rw [List.countP_eq_zero]
        intro a ha hpa
        have := of_decide_eq_true hpa
        rw [(hclean a ha).2.2.1] at this
        exact hmem (this ▸ ha)
      rw [hzero]

/-- Witness for C3 on a concrete tag line with a duplicate. -/
theorem claim_C3_witness :
    ((("eevee".data : Str).all isLowerNameChar = true ∧
      (∀ a ∈ ([] : List Str), lowerStr a = a)) ∧
    ([] ∉ splitOnCS (process_tags ("cute, cute".data) ("eevee".data) [])) ∧
    ((splitOnCS (process_tags ("cute, cute".data) ("eevee".data) [])).head? =
        some (triggerTag ("eevee".data)) ∨
      lowerStr (triggerTag ("eevee".data)) ∈
        splitOnCS (process_tags ("cute, cute".data) ("eevee".data) []))) :=
  ⟨⟨by decide, by decide⟩,
    (claim_C3 ("cute, cute".data) ("eevee".data) [] (by decide) (by decide)).1,
    (claim_C3 ("cute, cute".data) ("eevee".data) [] (by decide) (by decide)).2.2.2.2.2⟩
